import Mathlib

/-!
# Verification of the polyphonic synthesizer core

Shallow embedding of the synthesizer repository (src/src/*.py) and proofs
about it.  Python floats are modelled by `ℚ` where the code only performs
field arithmetic and comparisons, and by `ℝ` where it calls transcendental
functions (`sin`, `cos`).  Stateful methods become explicit state-passing
functions.  A Python exception raised inside a `try` block is modelled by
`Option` (with `none` for "raised").
-/


/-! ## ADSR envelope (src/src/adsr.py)

The `ADSR` class keeps the four stage durations, a sample rate, the current
interpolation level, the current stage and the time spent in it.  The
envelope stages `'off'/'attack'/'decay'/'sustain'/'release'` become an
inductive type.
-/

inductive AStage where
  | off
  | attack
  | decay
  | sustain
  | release
deriving Repr, DecidableEq

structure ADSRState where
  attack : ℚ
  decay : ℚ
  sustain : ℚ
  release : ℚ
  sample_rate : ℚ
  current_level : ℚ
  current_state : AStage
  time_in_state : ℚ
deriving Repr, DecidableEq

/-- Model of `ADSR.__init__`: attack 0.1, decay 0.1, sustain 0.7, release 0.1,
sample rate 44100, level 0, state `'off'`, timer 0. -/
def ADSRState.init : ADSRState :=
  { attack := 1/10, decay := 1/10, sustain := 7/10, release := 1/10
    sample_rate := 44100, current_level := 0
    current_state := AStage.off, time_in_state := 0 }

/-- Model of `ADSR.note_on`: enter `'attack'` and reset the timer. -/
def ADSRState.note_on (s : ADSRState) : ADSRState :=
  { s with current_state := AStage.attack, time_in_state := 0 }

/-- Model of `ADSR.note_off`: enter `'release'` and reset the timer.
Note: the source performs this unconditionally, from every state. -/
def ADSRState.note_off (s : ADSRState) : ADSRState :=
  { s with current_state := AStage.release, time_in_state := 0 }

/-- Model of `ADSR.get_next_value(samples)`: returns the updated object and the
returned envelope value.  In `'off'` the method returns before touching
the timer; in every other state it first advances `time_in_state` by
`samples / sample_rate` and then dispatches on the stage. -/
def ADSRState.get_next_value (s : ADSRState) (samples : ℕ) : ADSRState × ℚ :=
  match s.current_state with
  | AStage.off => (s, 0)
  | st =>
    let t := s.time_in_state + (samples : ℚ) / s.sample_rate
    match st with
    | AStage.off => (s, 0)
    | AStage.attack =>
        if t ≥ s.attack then
          ({ s with current_state := AStage.decay, time_in_state := 0 }, 1)
        else
          ({ s with time_in_state := t }, t / s.attack)
    | AStage.decay =>
        if t ≥ s.decay then
          ({ s with current_state := AStage.sustain, time_in_state := t }, s.sustain)
        else
          ({ s with time_in_state := t }, 1 - (1 - s.sustain) * (t / s.decay))
    | AStage.sustain =>
        ({ s with time_in_state := t }, s.sustain)
    | AStage.release =>
        if t ≥ s.release then
          ({ s with current_state := AStage.off, time_in_state := t }, 0)
        else
          ({ s with time_in_state := t }, s.sustain * (1 - t / s.release))

/-- The three envelope events a client can issue (`note_on`, `note_off`,
and a `get_next_value` call for a buffer of `samples` samples). -/
inductive AEvent where
  | note_on
  | note_off
  | advance (samples : ℕ)
deriving Repr, DecidableEq

def ADSRState.step (s : ADSRState) : AEvent → ADSRState
  | AEvent.note_on => s.note_on
  | AEvent.note_off => s.note_off
  | AEvent.advance n => (s.get_next_value n).1

def ADSRState.run (s : ADSRState) (evs : List AEvent) : ADSRState :=
  evs.foldl ADSRState.step s

/-- An ADSR state whose parameters are in the ranges assumed by the spec
(positive stage durations, sustain in `[0,1]`) and whose timer and sample
rate are well-formed.  The events of `AEvent` never modify the parameter
fields, so this predicate is preserved along every run. -/
def ADSRInv (s : ADSRState) : Prop :=
  0 < s.attack ∧ 0 < s.decay ∧ 0 < s.release ∧
  0 ≤ s.sustain ∧ s.sustain ≤ 1 ∧ 0 ≤ s.time_in_state ∧ 0 < s.sample_rate

instance (s : ADSRState) : Decidable (ADSRInv s) := by
  unfold ADSRInv; infer_instance

/-- Model of `initADSR a d su r` : the envelope obtained from a fresh `ADSR()` by
setting the four stage parameters (`set_attack` …), which is how the
engine configures envelopes. -/
def initADSR (a d su r : ℚ) : ADSRState :=
  { ADSRState.init with attack := a, decay := d, sustain := su, release := r }

/-! ## Voice management (src/src/synthesizer.py)

`Synthesizer` keeps two insertion-ordered dictionaries `active_voices` and
`released_voices` mapping MIDI note numbers to `Voice` objects, and a
polyphony limit `max_voices` (16).  Python dictionaries are modelled as
association lists in insertion order (updating an existing key keeps its
position, as `dict` does).  `Voice.note_on_time = time.time()` is
modelled by a strictly increasing logical clock.  The fields of `Voice`
that carry per-voice DSP state (frequency, phase, filter, chain) play no
role in the voice-set bookkeeping and are omitted here; the envelope is
kept because voice stealing must trigger its release. -/

structure Voice where
  note_on_time : ℕ
  release_triggered : Bool
  adsr : ADSRState
deriving Repr, DecidableEq

/-- Model of `Voice.__init__` (adsr = `ADSR()`, `release_triggered=False`) followed
by the `voice.adsr.note_on()` performed in `Synthesizer.note_on`. -/
def newVoice (clock : ℕ) : Voice :=
  { note_on_time := clock, release_triggered := false
    adsr := ADSRState.init.note_on }

/-- Model of `d[k] = v` on a Python dict: overwrite in place if the key exists,
else append. -/
def dictInsert (k : ℕ) (v : α) (l : List (ℕ × α)) : List (ℕ × α) :=
  if l.any (fun p => p.1 == k) then
    l.map (fun p => if p.1 == k then (k, v) else p)
  else l ++ [(k, v)]

/-- Model of `d.get(k)` / `k in d`. -/
def dictGet (k : ℕ) (l : List (ℕ × α)) : Option α :=
  (l.find? (fun p => p.1 == k)).map Prod.snd

/-- Model of `d.pop(k)`. -/
def dictErase (k : ℕ) (l : List (ℕ × α)) : List (ℕ × α) :=
  l.filter (fun p => p.1 != k)

/-- Model of `min(active_voices.keys(), key=lambda k: active_voices[k].note_on_time)`:
the first entry (in iteration order) with minimal `note_on_time`, `none`
for an empty dict (where Python's `min` raises `ValueError`). -/
def oldestEntry (l : List (ℕ × Voice)) : Option (ℕ × Voice) :=
  match l with
  | [] => none
  | p :: ps =>
      some (ps.foldl (fun best q =>
        if q.2.note_on_time < best.2.note_on_time then q else best) p)

structure SynthState where
  active_voices : List (ℕ × Voice)
  released_voices : List (ℕ × Voice)
  max_voices : ℕ
  clock : ℕ
deriving Repr, DecidableEq

/-- Model of `Synthesizer.__init__`: empty voice sets, `max_voices = 16`. -/
def SynthState.init : SynthState :=
  { active_voices := [], released_voices := [], max_voices := 16, clock := 0 }

/-- Model of `Synthesizer.note_off(note)`: if the note is active, pop it, set
`release_triggered`, trigger the envelope release and store it in
`released_voices`. -/
def SynthState.note_off (st : SynthState) (note : ℕ) : SynthState :=
  match dictGet note st.active_voices with
  | some v =>
      { st with
          active_voices := dictErase note st.active_voices
          released_voices :=
            dictInsert note
              { v with release_triggered := true, adsr := v.adsr.note_off }
              st.released_voices }
  | none => st

/-- Model of `Synthesizer.note_on(note)`: when the active set has reached
`max_voices`, first `note_off` the active voice with the smallest
`note_on_time`, then allocate a fresh voice for `note`.  `min()` over an
empty dict raises `ValueError`, aborting the call before any mutation;
that path is the `none` branch (unreachable for `max_voices ≥ 1`). -/
def SynthState.note_on (st : SynthState) (note : ℕ) : SynthState :=
  if st.max_voices ≤ st.active_voices.length then
    match oldestEntry st.active_voices with
    | none => st
    | some (o, _) =>
        let st1 := st.note_off o
        { st1 with
            active_voices := dictInsert note (newVoice st1.clock) st1.active_voices
            clock := st1.clock + 1 }
  else
    { st with
        active_voices := dictInsert note (newVoice st.clock) st.active_voices
        clock := st.clock + 1 }

inductive VEvent where
  | note_on (note : ℕ)
  | note_off (note : ℕ)
deriving Repr, DecidableEq

def SynthState.step (st : SynthState) : VEvent → SynthState
  | VEvent.note_on n => st.note_on n
  | VEvent.note_off n => st.note_off n

def SynthState.run (st : SynthState) (evs : List VEvent) : SynthState :=
  evs.foldl SynthState.step st

/-! ### Dictionary lemmas -/

def dictKeys (l : List (ℕ × α)) : List ℕ := l.map Prod.fst

/-! ### The polyphony-cap invariant -/

/-- Keys of the active set are distinct (as in a Python `dict`) and the
active set respects the polyphony bound. -/
def VoiceInv (st : SynthState) : Prop :=
  (dictKeys st.active_voices).Nodup ∧
  st.active_voices.length ≤ st.max_voices

/-- A concrete synthesizer state at its polyphony cap: two active voices,
`max_voices = 2`. -/
def capSt : SynthState :=
  { active_voices := [(60, newVoice 3), (61, newVoice 4)]
    released_voices := []
    max_voices := 2
    clock := 5 }

/-- A concrete state below the cap whose active set already holds note 60. -/
def lowSt : SynthState :=
  { active_voices := [(60, newVoice 0)]
    released_voices := [(62, newVoice 1)]
    max_voices := 16
    clock := 2 }

/-! ## Audio processing chain (src/src/audio_chain.py)

`AudioModule._process_audio` (the overridable hook) is modelled as a
function returning `Option`: `none` models the hook raising an exception,
which `process_voice`/`process_audio` catch per module (`try/except` with
`print`/`continue`), leaving the buffer at its pre-failure value. -/

structure AudioModule where
  enabled : Bool
  bypass : Bool
  proc : List ℚ → Option (List ℚ)

/-- Model of `AudioModule.process`: a disabled or bypassed module passes its input
through, otherwise the hook runs (and may raise). -/
def AudioModule.process (m : AudioModule) (signal : List ℚ) : Option (List ℚ) :=
  if !m.enabled || m.bypass then some signal else m.proc signal

/-- One iteration of the processing loop: on success the buffer is
replaced, on an exception it is left as it was. -/
def chainStep (buf : List ℚ) (m : AudioModule) : List ℚ :=
  (m.process buf).getD buf

/-- Model of `AudioChainHandler.process_voice`: filter the enabled, non-bypassed
modules and pipe the buffer through them, catching per-module failures. -/
def processVoice (chain : List AudioModule) (signal : List ℚ) : List ℚ :=
  (chain.filter (fun m => m.enabled && !m.bypass)).foldl chainStep signal

/-- Model of `AudioChainHandler.process_audio`: same loop, but an empty chain or an
empty active-module list returns the input unchanged. -/
def processAudio (chain : List AudioModule) (signal : List ℚ) : List ℚ :=
  if chain.isEmpty then signal
  else
    let active := chain.filter (fun m => m.enabled && !m.bypass)
    if active.isEmpty then signal
    else active.foldl chainStep signal

/-- A module that increments every sample. -/
def passModule : AudioModule :=
  { enabled := true, bypass := false
    proc := fun s => some (s.map (fun x => x + 1)) }

/-- A module whose hook always raises. -/
def failModule : AudioModule :=
  { enabled := true, bypass := false, proc := fun _ => none }

/-! ## Effects (src/src/audio_chain.py, `Effect`)

`Effect._process_audio` computes `signal * dry + wet_signal * wet`, where
`wet_signal = self._process_effect(signal)` is the subclass hook.  The
hook is modelled as an arbitrary same-length transform. -/

structure EffectM where
  wet : ℚ
  dry : ℚ
  eff : List ℚ → List ℚ

/-- Model of `Effect._process_audio`: elementwise `dry·input + wet·wetSignal`. -/
def EffectM.process_audio (e : EffectM) (signal : List ℚ) : List ℚ :=
  List.zipWith (fun x w => x * e.dry + w * e.wet) signal (e.eff signal)

/-- A dry-only effect whose hook doubles every sample. -/
def dryEffect : EffectM :=
  { wet := 0, dry := 1, eff := fun s => s.map (fun x => 2 * x) }

/-! ## Safety limiter (src/src/synthesizer.py, `SafetyLimiter`)

Per sample: the tracked envelope either jumps to `|x|` (attack) or decays
by `release_coeff`; while the envelope exceeds `threshold` the sample is
scaled by `threshold / envelope`.  The constructor's values are
`threshold = 0.95` and `release_coeff = exp(-1/4410)`; the model keeps
them as state fields. -/

structure SafetyLimiter where
  threshold : ℚ
  release_coeff : ℚ
  envelope : ℚ
deriving Repr, DecidableEq

/-- The envelope update performed for one sample. -/
def limiterEnv (st : SafetyLimiter) (x : ℚ) : ℚ :=
  if |x| > st.envelope then |x| else st.envelope * st.release_coeff

/-- Model of `SafetyLimiter.process`, one sample at a time. -/
def SafetyLimiter.process (st : SafetyLimiter) (signal : List ℚ) :
    SafetyLimiter × List ℚ :=
  match signal with
  | [] => (st, [])
  | x :: xs =>
      let env1 := limiterEnv st x
      let y := if env1 > st.threshold then x * (st.threshold / env1) else x
      let rest := SafetyLimiter.process { st with envelope := env1 } xs
      (rest.1, y :: rest.2)

/-! ## Audio callback output safety (src/src/synthesizer.py, lines 222-241)

The mixed buffer may contain NaN/±Inf after voice processing and the
safety stages; floats are therefore modelled by `FSample`, with the
NaN/Inf propagation of `np.clip` made explicit. -/

inductive FSample where
  | fin (x : ℚ)
  | nan
  | inf
  | ninf
deriving Repr, DecidableEq

/-- Model of `np.isnan`. -/
def FSample.isNan : FSample → Bool
  | FSample.nan => true
  | _ => false

/-- Model of `np.isinf` (true for both infinities). -/
def FSample.isInf : FSample → Bool
  | FSample.inf => true
  | FSample.ninf => true
  | _ => false

/-- Model of `np.clip(x, -1.0, 1.0)`: clamps finite values, maps the infinities to
the bounds, and propagates NaN. -/
def clipF : FSample → FSample
  | FSample.fin x => FSample.fin (max (-1) (min 1 x))
  | FSample.nan => FSample.nan
  | FSample.inf => FSample.fin 1
  | FSample.ninf => FSample.fin (-1)

/-- The tail of `Synthesizer.audio_callback`: if the mixed buffer contains
any NaN or Inf it is zero-filled, then it is clipped into the output
buffer. -/
def finalizeBuffer (temp : List FSample) : List FSample :=
  let muted :=
    if temp.any FSample.isNan || temp.any FSample.isInf then
      temp.map (fun _ => FSample.fin 0)
    else temp
  muted.map clipF

/-! ## Oscillator (src/src/oscillator.py)

`_generate_base_waveform(wave_type, size)` produces one cycle of the
waveform over `t = linspace(0, 1, size, endpoint=False)`, i.e.
`t_i = i/size`; it ignores the note frequency entirely.
`generate_waveform` then applies a nonzero detune by **rotating the base
buffer with `np.roll`** by `int(phase[-1] * sample_rate)` samples, where
`phase[-1] = duration * detune * (size-1)/size`.  (For `size = 0` the
Python code would raise an `IndexError` on `phase[-1]`; that case is
outside every claim and yields the empty buffer here.)  `sin` makes the
sample values real, so this section is noncomputable. -/

inductive Wave where
  | sine
  | saw
  | triangle
  | pulse
deriving Repr, DecidableEq

/-- Python `int()`: truncation toward zero. -/
noncomputable def pyInt (x : ℝ) : ℤ := if 0 ≤ x then ⌊x⌋ else ⌈x⌉

/-- One sample of the base waveform at phase `t ∈ [0, 1)`. -/
noncomputable def waveSample : Wave → ℚ → ℝ
  | Wave.sine, t => Real.sin (2 * Real.pi * (t : ℝ))
  | Wave.saw, t => ((2 * (t - ⌊t + 1/2⌋) : ℚ) : ℝ)
  | Wave.triangle, t => ((2 * |2 * (t - ⌊t + 1/2⌋)| - 1 : ℚ) : ℝ)
  | Wave.pulse, t => if t < 1/2 then (1 : ℝ) else -1

/-- Model of `_generate_base_waveform(wave_type, size)`. -/
noncomputable def baseWaveform (w : Wave) (size : ℕ) : List ℝ :=
  (List.range size).map (fun i => waveSample w ((i : ℚ) / (size : ℚ)))

/-- Model of `np.roll(a, k)`: `result[i] = a[(i - k) mod n]`, realised as a left
rotation by `(-k) mod n`. -/
def rollList (l : List α) (k : ℤ) : List α :=
  l.rotate ((-k) % (l.length : ℤ)).toNat

/-- Model of `generate_waveform(wave_type, frequency, sample_rate, duration,
detune=0.0)`.  Note that the body never reads `frequency` (the base
waveform is one cycle across the whole buffer regardless of pitch), and a
nonzero `detune` is applied by `np.roll`-ing the base buffer by
`int(phase[-1] * sample_rate)` samples with
`phase[-1] = duration * detune * (size-1)/size` — not by recomputing the
phase at a scaled frequency.  The unused `duty_cycle=0.5` parameter is
omitted. -/
noncomputable def generate_waveform (w : Wave)
    (frequency sample_rate duration detune : ℝ) : List ℝ :=
  let size := (pyInt (sample_rate * duration)).toNat
  let base := baseWaveform w size
  if detune ≠ 0 then
    rollList base
      (pyInt (duration * detune * ((size : ℝ) - 1) / (size : ℝ) * sample_rate))
  else base

/-- The detune computation of `Oscillator.generate` (oscillator.py:103):
the per-waveform semitone value is converted to a frequency offset
`f·2^(semitones/12) − f`, which is then handed to `generate_waveform` as
its `detune` argument. -/
noncomputable def detuneOffset (frequency semitones : ℝ) : ℝ :=
  frequency * (2 : ℝ) ^ (semitones / 12) - frequency

/-! ## Low-pass filter (src/src/filter.py)

`_update_coefficients` computes a biquad low-pass section from the
clamped cutoff and resonance; on the first run (`_prev_cutoff is None`)
the coefficients are assigned directly, afterwards they move toward the
new values through `_smooth_parameter`.  `apply_filter` runs the
difference equation per sample with DC blocking and clips every output
sample to `[-1, 1]`. -/

/-- Model of `np.clip(x, lo, hi)` on scalars. -/
noncomputable def clipR (x lo hi : ℝ) : ℝ := min hi (max lo x)

structure LowPassFilter where
  cutoff_freq : ℝ
  resonance : ℝ
  sample_rate : ℝ
  a1 : ℝ
  b0 : ℝ
  b1 : ℝ
  prev_x : ℝ
  prev_y : ℝ
  dc_block : ℝ
  dc_block_factor : ℝ
  prev_cutoff : Option ℝ
  prev_resonance : Option ℝ
  coefficient_smooth : ℝ
  max_coefficient_change : ℝ

/-- The new target coefficients `(new_a1, new_b0, new_b1)` computed by
`_update_coefficients` from the clamped parameters. -/
noncomputable def targetCoeffs (cutoff_freq resonance sample_rate : ℝ) :
    ℝ × ℝ × ℝ :=
  let w0 := 2 * Real.pi * clipR cutoff_freq 20 (sample_rate / 2.1) / sample_rate
  let res := clipR resonance 0.1 10
  let alpha := Real.sin w0 / (2 * res)
  let cosw0 := Real.cos w0
  let a0 := 1 + alpha
  ((-2 * cosw0) / a0, ((1 - cosw0) / 2) / a0, (1 - cosw0) / a0)

/-- Model of `_smooth_parameter`: rate-limited move toward the new value. -/
noncomputable def smooth_parameter (old new maxChange smoothFactor : ℝ) : ℝ :=
  let change := new - old
  let change' := if |change| > maxChange then Real.sign change * maxChange
                 else change
  old + change' * (1 - smoothFactor)

/-- Model of `_update_coefficients` (the `try` body; over the reals the
computation cannot raise, so the `except`/`reset` path is vacuous). -/
noncomputable def LowPassFilter.update_coefficients (f : LowPassFilter) :
    LowPassFilter :=
  let c := targetCoeffs f.cutoff_freq f.resonance f.sample_rate
  match f.prev_cutoff with
  | some _ =>
      { f with
          a1 := smooth_parameter f.a1 c.1 f.max_coefficient_change f.coefficient_smooth
          b0 := smooth_parameter f.b0 c.2.1 f.max_coefficient_change f.coefficient_smooth
          b1 := smooth_parameter f.b1 c.2.2 f.max_coefficient_change f.coefficient_smooth
          prev_cutoff := some f.cutoff_freq
          prev_resonance := some f.resonance }
  | none =>
      { f with
          a1 := c.1
          b0 := c.2.1
          b1 := c.2.2
          prev_cutoff := some f.cutoff_freq
          prev_resonance := some f.resonance }

/-- Model of `apply_filter`, one sample at a time: DC-block the input, evaluate the
difference equation, clip to `[-1, 1]`, update the delay registers. -/
noncomputable def LowPassFilter.apply_filter (f : LowPassFilter)
    (signal : List ℝ) : LowPassFilter × List ℝ :=
  match signal with
  | [] => (f, [])
  | x :: xs =>
      let input := x - f.dc_block
      let dc' := f.dc_block * f.dc_block_factor + input * (1 - f.dc_block_factor)
      let y := clipR (f.b0 * input + f.b1 * f.prev_x - f.a1 * f.prev_y) (-1) 1
      let rest := LowPassFilter.apply_filter
        { f with dc_block := dc', prev_x := input, prev_y := y } xs
      (rest.1, y :: rest.2)

/-- The filter state produced by `LowPassFilter.__init__` just before its
first `_update_coefficients` call. -/
noncomputable def initFilter : LowPassFilter :=
  { cutoff_freq := 1000, resonance := 0.5, sample_rate := 44100
    a1 := 0, b0 := 0, b1 := 0, prev_x := 0, prev_y := 0
    dc_block := 0, dc_block_factor := 0.995
    prev_cutoff := none, prev_resonance := none
    coefficient_smooth := 0.99, max_coefficient_change := 0.1 }

/-! ## Theorems -/

/-! ### Invariant preservation and envelope-value lemmas -/

lemma adsrInv_note_on {s : ADSRState} (h : ADSRInv s) : ADSRInv s.note_on := by
  obtain ⟨h1, h2, h3, h4, h5, h6, h7⟩ := h
  exact ⟨h1, h2, h3, h4, h5, le_refl 0, h7⟩

lemma adsrInv_note_off {s : ADSRState} (h : ADSRInv s) : ADSRInv s.note_off := by
  obtain ⟨h1, h2, h3, h4, h5, h6, h7⟩ := h
  exact ⟨h1, h2, h3, h4, h5, le_refl 0, h7⟩

lemma ADSRInv.time_nonneg {s : ADSRState} (h : ADSRInv s) (n : ℕ) :
    0 ≤ s.time_in_state + (n : ℚ) / s.sample_rate :=
  add_nonneg h.2.2.2.2.2.1 (div_nonneg (Nat.cast_nonneg n) (le_of_lt h.2.2.2.2.2.2))

/-- Shape of `get_next_value` in the `'off'` stage: early return, no timer
update. -/
lemma get_next_value_off {s : ADSRState} (hst : s.current_state = AStage.off)
    (n : ℕ) : s.get_next_value n = (s, 0) := by
  simp only [ADSRState.get_next_value, hst]

/-- Shape of `get_next_value` in the `'attack'` stage. -/
lemma get_next_value_attack {s : ADSRState} (hst : s.current_state = AStage.attack)
    (n : ℕ) :
    s.get_next_value n =
      if s.attack ≤ s.time_in_state + (n : ℚ) / s.sample_rate then
        ({ s with current_state := AStage.decay, time_in_state := 0 }, 1)
      else
        ({ s with time_in_state := s.time_in_state + (n : ℚ) / s.sample_rate },
          (s.time_in_state + (n : ℚ) / s.sample_rate) / s.attack) := by
  simp only [ADSRState.get_next_value, hst, ge_iff_le]

/-- Shape of `get_next_value` in the `'decay'` stage. -/
lemma get_next_value_decay {s : ADSRState} (hst : s.current_state = AStage.decay)
    (n : ℕ) :
    s.get_next_value n =
      if s.decay ≤ s.time_in_state + (n : ℚ) / s.sample_rate then
        ({ s with current_state := AStage.sustain
                  time_in_state := s.time_in_state + (n : ℚ) / s.sample_rate }, s.sustain)
      else
        ({ s with time_in_state := s.time_in_state + (n : ℚ) / s.sample_rate },
          1 - (1 - s.sustain) * ((s.time_in_state + (n : ℚ) / s.sample_rate) / s.decay)) := by
  simp only [ADSRState.get_next_value, hst, ge_iff_le]

/-- Shape of `get_next_value` in the `'sustain'` stage. -/
lemma get_next_value_sustain {s : ADSRState} (hst : s.current_state = AStage.sustain)
    (n : ℕ) :
    s.get_next_value n =
      ({ s with time_in_state := s.time_in_state + (n : ℚ) / s.sample_rate },
        s.sustain) := by
  simp only [ADSRState.get_next_value, hst]

/-- Shape of `get_next_value` in the `'release'` stage. -/
lemma get_next_value_release {s : ADSRState} (hst : s.current_state = AStage.release)
    (n : ℕ) :
    s.get_next_value n =
      if s.release ≤ s.time_in_state + (n : ℚ) / s.sample_rate then
        ({ s with current_state := AStage.off
                  time_in_state := s.time_in_state + (n : ℚ) / s.sample_rate }, 0)
      else
        ({ s with time_in_state := s.time_in_state + (n : ℚ) / s.sample_rate },
          s.sustain * (1 - (s.time_in_state + (n : ℚ) / s.sample_rate) / s.release)) := by
  simp only [ADSRState.get_next_value, hst, ge_iff_le]

lemma ADSRInv.get_next_value {s : ADSRState} (h : ADSRInv s) (n : ℕ) :
    ADSRInv (s.get_next_value n).1 := by
  obtain ⟨h1, h2, h3, h4, h5, h6, h7⟩ := h
  have hInv : ADSRInv s := ⟨h1, h2, h3, h4, h5, h6, h7⟩
  have ht : 0 ≤ s.time_in_state + (n : ℚ) / s.sample_rate := hInv.time_nonneg n
  cases hst : s.current_state
  · rw [get_next_value_off hst]; exact hInv
  · rw [get_next_value_attack hst]; split_ifs
    · exact ⟨h1, h2, h3, h4, h5, le_refl 0, h7⟩
    · exact ⟨h1, h2, h3, h4, h5, ht, h7⟩
  · rw [get_next_value_decay hst]; split_ifs
    · exact ⟨h1, h2, h3, h4, h5, ht, h7⟩
    · exact ⟨h1, h2, h3, h4, h5, ht, h7⟩
  · rw [get_next_value_sustain hst]
    exact ⟨h1, h2, h3, h4, h5, ht, h7⟩
  · rw [get_next_value_release hst]; split_ifs
    · exact ⟨h1, h2, h3, h4, h5, ht, h7⟩
    · exact ⟨h1, h2, h3, h4, h5, ht, h7⟩

lemma adsrInv_step {s : ADSRState} (h : ADSRInv s) (e : AEvent) :
    ADSRInv (s.step e) := by
  cases e with
  | note_on => exact adsrInv_note_on h
  | note_off => exact adsrInv_note_off h
  | advance n => exact h.get_next_value n

lemma adsrInv_run {s : ADSRState} (h : ADSRInv s) (evs : List AEvent) :
    ADSRInv (s.run evs) := by
  induction evs generalizing s with
  | nil => exact h
  | cons e evs ih => exact ih (adsrInv_step h e)

lemma initADSR_inv {a d su r : ℚ} (ha : 0 < a) (hd : 0 < d) (hr : 0 < r)
    (hsu0 : 0 ≤ su) (hsu1 : su ≤ 1) : ADSRInv (initADSR a d su r) :=
  ⟨ha, hd, hr, hsu0, hsu1, le_refl 0, by norm_num [initADSR, ADSRState.init]⟩

/-- The value returned by `get_next_value` lies in `[0,1]` for every state
satisfying the invariant. -/
lemma get_next_value_mem_unit {s : ADSRState} (h : ADSRInv s) (n : ℕ) :
    0 ≤ (s.get_next_value n).2 ∧ (s.get_next_value n).2 ≤ 1 := by
  obtain ⟨h1, h2, h3, h4, h5, h6, h7⟩ := h
  have ht : 0 ≤ s.time_in_state + (n : ℚ) / s.sample_rate :=
    ADSRInv.time_nonneg ⟨h1, h2, h3, h4, h5, h6, h7⟩ n
  cases hst : s.current_state
  · rw [get_next_value_off hst]
    exact ⟨le_refl 0, zero_le_one⟩
  · rw [get_next_value_attack hst]; split_ifs with hif
    · exact ⟨zero_le_one, le_refl 1⟩
    · push_neg at hif
      exact ⟨div_nonneg ht (le_of_lt h1), le_of_lt ((div_lt_one h1).mpr hif)⟩
  · rw [get_next_value_decay hst]; split_ifs with hif
    · exact ⟨h4, h5⟩
    · push_neg at hif
      have hp0 : 0 ≤ (s.time_in_state + (n : ℚ) / s.sample_rate) / s.decay :=
        div_nonneg ht (le_of_lt h2)
      have hp1 : (s.time_in_state + (n : ℚ) / s.sample_rate) / s.decay ≤ 1 :=
        le_of_lt ((div_lt_one h2).mpr hif)
      constructor
      · have : (1 - s.sustain) * ((s.time_in_state + (n : ℚ) / s.sample_rate) / s.decay) ≤ 1 :=
          mul_le_one₀ (by linarith) hp0 hp1
        simpa using by linarith
      · have : 0 ≤ (1 - s.sustain) * ((s.time_in_state + (n : ℚ) / s.sample_rate) / s.decay) :=
          mul_nonneg (by linarith) hp0
        simpa using by linarith
  · rw [get_next_value_sustain hst]
    exact ⟨h4, h5⟩
  · rw [get_next_value_release hst]; split_ifs with hif
    · exact ⟨le_refl 0, zero_le_one⟩
    · push_neg at hif
      have hp0 : 0 ≤ (s.time_in_state + (n : ℚ) / s.sample_rate) / s.release :=
        div_nonneg ht (le_of_lt h3)
      have hp1 : (s.time_in_state + (n : ℚ) / s.sample_rate) / s.release ≤ 1 :=
        le_of_lt ((div_lt_one h3).mpr hif)
      constructor
      · exact mul_nonneg h4 (by linarith)
      · exact mul_le_one₀ h5 (by linarith) (by linarith)

/-- Attack monotonicity: if a `get_next_value` call leaves the envelope
still in `'attack'`, the value returned by the following call is at least
as large. -/
lemma attack_mono {s : ADSRState} (h : ADSRInv s)
    (hst : s.current_state = AStage.attack) (n₁ n₂ : ℕ)
    (h1 : (s.get_next_value n₁).1.current_state = AStage.attack) :
    (s.get_next_value n₁).2 ≤ ((s.get_next_value n₁).1.get_next_value n₂).2 := by
  obtain ⟨ha, hd, hr, hsu0, hsu1, ht0, hsr⟩ := h
  have hInv : ADSRInv s := ⟨ha, hd, hr, hsu0, hsu1, ht0, hsr⟩
  have ht : 0 ≤ s.time_in_state + (n₁ : ℚ) / s.sample_rate := hInv.time_nonneg n₁
  rw [get_next_value_attack hst] at h1 ⊢
  split_ifs at h1 ⊢ with hif
  push_neg at hif
  dsimp only
  rw [get_next_value_attack (s := { s with time_in_state :=
      s.time_in_state + (n₁ : ℚ) / s.sample_rate }) h1]
  have hn2 : (0 : ℚ) ≤ (n₂ : ℚ) / s.sample_rate :=
    div_nonneg (Nat.cast_nonneg n₂) (le_of_lt hsr)
  split_ifs with hif₂ <;> dsimp only
  · exact le_of_lt ((div_lt_one ha).mpr hif)
  · exact (div_le_div_iff_of_pos_right ha).mpr (le_add_of_nonneg_right hn2)

/-- Decay monotonicity: while the envelope stays in `'decay'`, values
decrease from at most `1` and never drop below `sustain`. -/
lemma decay_mono {s : ADSRState} (h : ADSRInv s)
    (hst : s.current_state = AStage.decay) (n₁ n₂ : ℕ)
    (h1 : (s.get_next_value n₁).1.current_state = AStage.decay) :
    s.sustain ≤ ((s.get_next_value n₁).1.get_next_value n₂).2 ∧
    ((s.get_next_value n₁).1.get_next_value n₂).2 ≤ (s.get_next_value n₁).2 ∧
    (s.get_next_value n₁).2 ≤ 1 := by
  obtain ⟨ha, hd, hr, hsu0, hsu1, ht0, hsr⟩ := h
  have hInv : ADSRInv s := ⟨ha, hd, hr, hsu0, hsu1, ht0, hsr⟩
  have ht : 0 ≤ s.time_in_state + (n₁ : ℚ) / s.sample_rate := hInv.time_nonneg n₁
  rw [get_next_value_decay hst] at h1 ⊢
  split_ifs at h1 ⊢ with hif
  push_neg at hif
  dsimp only
  rw [get_next_value_decay (s := { s with time_in_state :=
      s.time_in_state + (n₁ : ℚ) / s.sample_rate }) h1]
  have hn2 : (0 : ℚ) ≤ (n₂ : ℚ) / s.sample_rate :=
    div_nonneg (Nat.cast_nonneg n₂) (le_of_lt hsr)
  have hp0 : 0 ≤ (s.time_in_state + (n₁ : ℚ) / s.sample_rate) / s.decay :=
    div_nonneg ht (le_of_lt hd)
  have hp1 : (s.time_in_state + (n₁ : ℚ) / s.sample_rate) / s.decay < 1 :=
    (div_lt_one hd).mpr hif
  split_ifs with hif₂ <;> dsimp only at hif₂ ⊢
  · exact ⟨le_refl _, by nlinarith, by nlinarith⟩
  · push_neg at hif₂
    have hq0 : 0 ≤ (s.time_in_state + (n₁ : ℚ) / s.sample_rate + (n₂ : ℚ) / s.sample_rate) / s.decay :=
      div_nonneg (by linarith) (le_of_lt hd)
    have hq1 : (s.time_in_state + (n₁ : ℚ) / s.sample_rate + (n₂ : ℚ) / s.sample_rate) / s.decay < 1 :=
      (div_lt_one hd).mpr hif₂
    have hmono : (s.time_in_state + (n₁ : ℚ) / s.sample_rate) / s.decay ≤
        (s.time_in_state + (n₁ : ℚ) / s.sample_rate + (n₂ : ℚ) / s.sample_rate) / s.decay :=
      (div_le_div_iff_of_pos_right hd).mpr (le_add_of_nonneg_right hn2)
    refine ⟨by nlinarith, by nlinarith, by nlinarith⟩

/-- Release monotonicity: while the envelope stays in `'release'`, values
decrease and stay nonnegative. -/
lemma release_mono {s : ADSRState} (h : ADSRInv s)
    (hst : s.current_state = AStage.release) (n₁ n₂ : ℕ)
    (h1 : (s.get_next_value n₁).1.current_state = AStage.release) :
    0 ≤ ((s.get_next_value n₁).1.get_next_value n₂).2 ∧
    ((s.get_next_value n₁).1.get_next_value n₂).2 ≤ (s.get_next_value n₁).2 := by
  obtain ⟨ha, hd, hr, hsu0, hsu1, ht0, hsr⟩ := h
  have hInv : ADSRInv s := ⟨ha, hd, hr, hsu0, hsu1, ht0, hsr⟩
  have ht : 0 ≤ s.time_in_state + (n₁ : ℚ) / s.sample_rate := hInv.time_nonneg n₁
  rw [get_next_value_release hst] at h1 ⊢
  split_ifs at h1 ⊢ with hif
  push_neg at hif
  dsimp only
  rw [get_next_value_release (s := { s with time_in_state :=
      s.time_in_state + (n₁ : ℚ) / s.sample_rate }) h1]
  have hn2 : (0 : ℚ) ≤ (n₂ : ℚ) / s.sample_rate :=
    div_nonneg (Nat.cast_nonneg n₂) (le_of_lt hsr)
  have hp1 : (s.time_in_state + (n₁ : ℚ) / s.sample_rate) / s.release < 1 :=
    (div_lt_one hr).mpr hif
  have hp0 : 0 ≤ (s.time_in_state + (n₁ : ℚ) / s.sample_rate) / s.release :=
    div_nonneg ht (le_of_lt hr)
  split_ifs with hif₂ <;> dsimp only at hif₂ ⊢
  · exact ⟨le_refl 0, by nlinarith⟩
  · push_neg at hif₂
    have hq1 : (s.time_in_state + (n₁ : ℚ) / s.sample_rate + (n₂ : ℚ) / s.sample_rate) / s.release < 1 :=
      (div_lt_one hr).mpr hif₂
    have hmono : (s.time_in_state + (n₁ : ℚ) / s.sample_rate) / s.release ≤
        (s.time_in_state + (n₁ : ℚ) / s.sample_rate + (n₂ : ℚ) / s.sample_rate) / s.release :=
      (div_le_div_iff_of_pos_right hr).mpr (le_add_of_nonneg_right hn2)
    exact ⟨by nlinarith, by nlinarith⟩

/-! ### Claim C2 -/

/-- C2: for every envelope with attack, decay, release > 0 and sustain in
[0,1], and every sequence of `note_on`/`note_off`/`get_next_value` events,
the envelope invariant is maintained, the output of `get_next_value` stays
in `[0,1]`, it is non-decreasing while the envelope remains in the attack
stage, moves monotonically from at most 1 down toward `sustain` while it
remains in the decay stage, and moves monotonically down toward 0 while it
remains in the release stage. -/
theorem adsr_envelope_unit_range_and_stage_monotonicity
    (a d su r : ℚ) (ha : 0 < a) (hd : 0 < d) (hr : 0 < r)
    (hsu0 : 0 ≤ su) (hsu1 : su ≤ 1) :
    (∀ evs : List AEvent, ADSRInv ((initADSR a d su r).run evs)) ∧
    (∀ s : ADSRState, ADSRInv s → ∀ n : ℕ,
      0 ≤ (s.get_next_value n).2 ∧ (s.get_next_value n).2 ≤ 1) ∧
    (∀ s : ADSRState, ADSRInv s → s.current_state = AStage.attack → ∀ n₁ n₂ : ℕ,
      (s.get_next_value n₁).1.current_state = AStage.attack →
      (s.get_next_value n₁).2 ≤ ((s.get_next_value n₁).1.get_next_value n₂).2) ∧
    (∀ s : ADSRState, ADSRInv s → s.current_state = AStage.decay → ∀ n₁ n₂ : ℕ,
      (s.get_next_value n₁).1.current_state = AStage.decay →
      s.sustain ≤ ((s.get_next_value n₁).1.get_next_value n₂).2 ∧
      ((s.get_next_value n₁).1.get_next_value n₂).2 ≤ (s.get_next_value n₁).2 ∧
      (s.get_next_value n₁).2 ≤ 1) ∧
    (∀ s : ADSRState, ADSRInv s → s.current_state = AStage.release → ∀ n₁ n₂ : ℕ,
      (s.get_next_value n₁).1.current_state = AStage.release →
      0 ≤ ((s.get_next_value n₁).1.get_next_value n₂).2 ∧
      ((s.get_next_value n₁).1.get_next_value n₂).2 ≤ (s.get_next_value n₁).2) := by
  refine ⟨fun evs => adsrInv_run (initADSR_inv ha hd hr hsu0 hsu1) evs, ?_, ?_, ?_, ?_⟩
  · exact fun s h n => get_next_value_mem_unit h n
  · exact fun s h hst n₁ n₂ h1 => attack_mono h hst n₁ n₂ h1
  · exact fun s h hst n₁ n₂ h1 => decay_mono h hst n₁ n₂ h1
  · exact fun s h hst n₁ n₂ h1 => release_mono h hst n₁ n₂ h1

/-- Witness for C2 at the concrete parameters attack = decay = release = 1,
sustain = 1/2. -/
theorem adsr_envelope_unit_range_and_stage_monotonicity_witness :
    ((0:ℚ) < 1 ∧ (0:ℚ) ≤ 1/2 ∧ (1/2:ℚ) ≤ 1) ∧
    (∀ evs : List AEvent, ADSRInv ((initADSR 1 1 (1/2) 1).run evs)) :=
  ⟨⟨by norm_num, by norm_num, by norm_num⟩,
    (adsr_envelope_unit_range_and_stage_monotonicity 1 1 (1/2) 1
      (by norm_num) (by norm_num) (by norm_num) (by norm_num) (by norm_num)).1⟩

/-! ### Claim C5

The claim says the `'off'` stage is terminal under every event except
`note_on`, and in particular that a `note_off` received in `'off'` changes
nothing.  The source's `ADSR.note_off` moves to `'release'`
unconditionally — also from `'off'` — after which `get_next_value`
produces `sustain · (1 − t/release) > 0`.  The claim is therefore false as
stated; what holds is that `get_next_value` keeps the `'off'` stage off
with value 0, while `note_off` sends every state, `'off'` included, to
`'release'`. -/

/-- C5 counterexample: a fresh `ADSR()` is in the `'off'` stage; calling
`note_off` moves it out of `'off'` (to `'release'`), and the next
`get_next_value` call (one 256-sample buffer) returns a strictly positive
value. -/
theorem adsr_off_note_off_cex :
    ADSRState.init.current_state = AStage.off ∧
    (ADSRState.init.note_off).current_state ≠ AStage.off ∧
    0 < ((ADSRState.init.note_off).get_next_value 256).2 := by
  refine ⟨rfl, ?_, ?_⟩
  · simp [ADSRState.init, ADSRState.note_off]
  · norm_num [ADSRState.init, ADSRState.note_off, ADSRState.get_next_value]

/-- C5 amended: in the `'off'` stage `get_next_value` returns 0 and leaves
the state unchanged (so `'off'` is terminal under `get_next_value`), but
`note_off` — from every state, the `'off'` stage included — moves the
envelope to `'release'` and resets its timer. -/
theorem adsr_off_value_zero_and_note_off_always_release
    (s : ADSRState) (n : ℕ) (hst : s.current_state = AStage.off) :
    s.get_next_value n = (s, 0) ∧
    s.note_off.current_state = AStage.release ∧
    s.note_off.time_in_state = 0 :=
  ⟨get_next_value_off hst n, rfl, rfl⟩

/-- Witness for the amended C5 at a fresh `ADSR()` and a 7-sample buffer. -/
theorem adsr_off_value_zero_and_note_off_always_release_witness :
    ADSRState.init.current_state = AStage.off ∧
    (ADSRState.init.get_next_value 7 = (ADSRState.init, 0) ∧
      ADSRState.init.note_off.current_state = AStage.release ∧
      ADSRState.init.note_off.time_in_state = 0) :=
  ⟨rfl, adsr_off_value_zero_and_note_off_always_release ADSRState.init 7 rfl⟩

lemma dictInsert_length_le (k : ℕ) (v : α) (l : List (ℕ × α)) :
    (dictInsert k v l).length ≤ l.length + 1 := by
  unfold dictInsert; split
  · simp
  · simp

lemma dictInsert_keys_of_mem {k : ℕ} {l : List (ℕ × α)} (v : α)
    (h : l.any (fun p => p.1 == k) = true) :
    dictKeys (dictInsert k v l) = dictKeys l := by
  unfold dictInsert dictKeys
  rw [if_pos h, List.map_map]
  apply List.map_congr_left
  intro p _
  by_cases hp : p.1 = k
  · simp [hp]
  · simp [hp]

lemma dictInsert_keys_of_not_mem {k : ℕ} {l : List (ℕ × α)} (v : α)
    (h : ¬ l.any (fun p => p.1 == k) = true) :
    dictKeys (dictInsert k v l) = dictKeys l ++ [k] := by
  unfold dictInsert dictKeys
  rw [if_neg h]
  simp

lemma dictInsert_length_of_mem {k : ℕ} {l : List (ℕ × α)} (v : α)
    (h : l.any (fun p => p.1 == k) = true) :
    (dictInsert k v l).length = l.length := by
  unfold dictInsert
  rw [if_pos h]
  simp

lemma dictInsert_nodup {k : ℕ} {l : List (ℕ × α)} (v : α)
    (h : (dictKeys l).Nodup) : (dictKeys (dictInsert k v l)).Nodup := by
  by_cases hm : l.any (fun p => p.1 == k) = true
  · rw [dictInsert_keys_of_mem v hm]; exact h
  · rw [dictInsert_keys_of_not_mem v hm]
    have hk : k ∉ dictKeys l := by
      intro hmem
      apply hm
      rw [List.any_eq_true]
      obtain ⟨p, hp, hfst⟩ := List.mem_map.mp hmem
      exact ⟨p, hp, by simp [hfst]⟩
    simp [List.nodup_append, h, hk]

lemma dictErase_sublist (k : ℕ) (l : List (ℕ × α)) :
    (dictErase k l).Sublist l := List.filter_sublist l

lemma dictErase_nodup {k : ℕ} {l : List (ℕ × α)}
    (h : (dictKeys l).Nodup) : (dictKeys (dictErase k l)).Nodup :=
  List.Nodup.sublist (List.Sublist.map Prod.fst (dictErase_sublist k l)) h

lemma length_filter_lt_of_mem {l : List β} {f : β → Bool} {x : β}
    (hx : x ∈ l) (hfx : f x = false) : (l.filter f).length < l.length := by
  induction hx with
  | head t =>
      rw [List.filter_cons, hfx]
      simp only [Bool.false_eq_true, if_false]
      exact Nat.lt_succ_of_le (List.length_filter_le _ t)
  | tail b hmem ih =>
      rw [List.filter_cons]
      by_cases hb : f b = true
      · rw [if_pos hb]
        simpa using ih
      · simp only [hb, if_false]
        exact Nat.lt_succ_of_le (Nat.le_of_lt ih)

lemma dictGet_some_inner {k : ℕ} {l : List (ℕ × α)} {v : α}
    (h : dictGet k l = some v) :
    ∃ p ∈ l, (p.1 == k) = true ∧ p.2 = v := by
  unfold dictGet at h
  cases hf : l.find? (fun p => p.1 == k) with
  | none => rw [hf] at h; simp at h
  | some p =>
      rw [hf] at h
      have hmem := List.mem_of_find?_eq_some hf
      have hpk := List.find?_some hf
      exact ⟨p, hmem, hpk, by simpa using h⟩

lemma dictErase_length_lt {k : ℕ} {l : List (ℕ × α)} {v : α}
    (h : dictGet k l = some v) : (dictErase k l).length < l.length := by
  obtain ⟨p, hp, hpk, -⟩ := dictGet_some_inner h
  have hf : (p.1 != k) = false := by simp_all
  exact length_filter_lt_of_mem hp hf

lemma dictGet_isSome_any {k : ℕ} {l : List (ℕ × α)}
    (h : (dictGet k l).isSome) : l.any (fun p => p.1 == k) = true := by
  cases hf : l.find? (fun p => p.1 == k) with
  | none => unfold dictGet at h; rw [hf] at h; simp at h
  | some p =>
      have hmem := List.mem_of_find?_eq_some hf
      have hpk := List.find?_some hf
      exact List.any_eq_true.mpr ⟨p, hmem, hpk⟩

lemma find?_map_overwrite (k : ℕ) (v : α) (t : List (ℕ × α)) :
    (t.map (fun p => if p.1 == k then (k, v) else p)).find? (fun p => p.1 == k)
      = (t.find? (fun p => p.1 == k)).map (fun _ => (k, v)) := by
  induction t with
  | nil => simp
  | cons q t ih =>
      by_cases hq : (q.1 == k) = true
      · have hq' : q.1 = k := by simpa using hq
        simp [List.find?_cons, hq']
      · have hq' : (q.1 == k) = false := by simpa using hq
        simp only [List.map_cons, hq', if_false, List.find?_cons, Bool.false_eq_true]
        exact ih

lemma find?_append_new (k : ℕ) (v : α) (t : List (ℕ × α))
    (h : ¬ t.any (fun p => p.1 == k) = true) :
    (t ++ [(k, v)]).find? (fun p => p.1 == k) = some (k, v) := by
  induction t with
  | nil => simp
  | cons q t ih =>
      have hq : (q.1 == k) = false := by
        rcases Bool.eq_false_or_eq_true (q.1 == k) with hh | hh
        · exact absurd (List.any_eq_true.mpr ⟨q, List.mem_cons_self q t, hh⟩) h
        · exact hh
      have ht : ¬ t.any (fun p => p.1 == k) = true := by
        intro hx
        rcases List.any_eq_true.mp hx with ⟨p, hp, hpk⟩
        exact h (List.any_eq_true.mpr ⟨p, List.mem_cons_of_mem q hp, hpk⟩)
      simpa [List.find?_cons, hq] using ih ht

lemma dictGet_dictInsert_self (k : ℕ) (v : α) (l : List (ℕ × α)) :
    dictGet k (dictInsert k v l) = some v := by
  unfold dictInsert dictGet
  by_cases hm : l.any (fun p => p.1 == k) = true
  · rw [if_pos hm, find?_map_overwrite]
    obtain ⟨p, hp, hpk⟩ := List.any_eq_true.mp hm
    cases hf : l.find? (fun p => p.1 == k) with
    | none =>
        exfalso
        have hsome : (l.find? (fun p => p.1 == k)).isSome :=
          List.find?_isSome.mpr ⟨p, hp, hpk⟩
        rw [hf] at hsome
        simp at hsome
    | some q => simp
  · rw [if_neg hm, find?_append_new k v l hm]
    simp

lemma dictGet_of_mem_nodup {k : ℕ} {v : α} {l : List (ℕ × α)}
    (hnd : (dictKeys l).Nodup) (hmem : (k, v) ∈ l) : dictGet k l = some v := by
  induction l with
  | nil => simp at hmem
  | cons q t ih =>
      unfold dictGet
      rcases List.mem_cons.mp hmem with rfl | hmt
      · simp [List.find?_cons]
      · have hq : (q.1 == k) = false := by
          rcases Bool.eq_false_or_eq_true (q.1 == k) with hh | hh
          · exfalso
            have hk : k ∈ dictKeys t := List.mem_map.mpr ⟨(k, v), hmt, rfl⟩
            have hqk : q.1 = k := by simpa using hh
            have := (List.nodup_cons.mp hnd).1
            exact this (hqk ▸ hk)
          · exact hh
        rw [List.find?_cons, hq]
        exact ih (List.nodup_cons.mp hnd).2 hmt

/-! ### Oldest-voice selection lemmas -/

lemma foldl_oldest_mem (ps : List (ℕ × Voice)) (b : ℕ × Voice) :
    ps.foldl (fun best q =>
      if q.2.note_on_time < best.2.note_on_time then q else best) b = b ∨
    ps.foldl (fun best q =>
      if q.2.note_on_time < best.2.note_on_time then q else best) b ∈ ps := by
  induction ps generalizing b with
  | nil => left; rfl
  | cons q t ih =>
      rw [List.foldl_cons]
      rcases ih (if q.2.note_on_time < b.2.note_on_time then q else b) with h | h
      · rw [h]
        by_cases hc : q.2.note_on_time < b.2.note_on_time
        · right; rw [if_pos hc]; exact List.mem_cons_self q t
        · left; rw [if_neg hc]
      · right; exact List.mem_cons_of_mem q h

lemma foldl_oldest_le (ps : List (ℕ × Voice)) (b : ℕ × Voice) :
    (ps.foldl (fun best q =>
        if q.2.note_on_time < best.2.note_on_time then q else best) b).2.note_on_time
      ≤ b.2.note_on_time ∧
    ∀ q ∈ ps,
      (ps.foldl (fun best q =>
        if q.2.note_on_time < best.2.note_on_time then q else best) b).2.note_on_time
      ≤ q.2.note_on_time := by
  induction ps generalizing b with
  | nil => exact ⟨le_refl _, by simp⟩
  | cons q t ih =>
      rw [List.foldl_cons]
      obtain ⟨ih1, ih2⟩ := ih (if q.2.note_on_time < b.2.note_on_time then q else b)
      have hb : (if q.2.note_on_time < b.2.note_on_time then q else b).2.note_on_time
          ≤ b.2.note_on_time := by
        by_cases hc : q.2.note_on_time < b.2.note_on_time
        · rw [if_pos hc]; exact Nat.le_of_lt hc
        · rw [if_neg hc]
      have hq : (if q.2.note_on_time < b.2.note_on_time then q else b).2.note_on_time
          ≤ q.2.note_on_time := by
        by_cases hc : q.2.note_on_time < b.2.note_on_time
        · rw [if_pos hc]
        · rw [if_neg hc]; exact Nat.le_of_not_lt hc
      refine ⟨le_trans ih1 hb, ?_⟩
      intro r hr
      rcases List.mem_cons.mp hr with rfl | hrt
      · exact le_trans ih1 hq
      · exact ih2 r hrt

lemma oldestEntry_mem {l : List (ℕ × Voice)} {p : ℕ × Voice}
    (h : oldestEntry l = some p) : p ∈ l := by
  cases l with
  | nil => simp [oldestEntry] at h
  | cons q t =>
      unfold oldestEntry at h
      have hp := Option.some.inj h
      rcases foldl_oldest_mem t q with hh | hh
      · rw [hp] at hh; rw [hh]; exact List.mem_cons_self q t
      · rw [hp] at hh; exact List.mem_cons_of_mem q hh

lemma oldestEntry_min {l : List (ℕ × Voice)} {p : ℕ × Voice}
    (h : oldestEntry l = some p) :
    ∀ q ∈ l, p.2.note_on_time ≤ q.2.note_on_time := by
  cases l with
  | nil => simp [oldestEntry] at h
  | cons q t =>
      unfold oldestEntry at h
      have hp := Option.some.inj h
      obtain ⟨h1, h2⟩ := foldl_oldest_le t q
      intro r hr
      rcases List.mem_cons.mp hr with rfl | hrt
      · rw [← hp]; exact h1
      · rw [← hp]; exact h2 r hrt

lemma voiceInv_note_off {st : SynthState} (h : VoiceInv st) (note : ℕ) :
    VoiceInv (st.note_off note) := by
  unfold SynthState.note_off
  split
  · exact ⟨dictErase_nodup h.1,
      le_trans (List.length_filter_le _ _) h.2⟩
  · exact h

lemma voiceInv_note_on {st : SynthState} (h : VoiceInv st) (note : ℕ) :
    VoiceInv (st.note_on note) := by
  unfold SynthState.note_on
  by_cases hcap : st.max_voices ≤ st.active_voices.length
  · rw [if_pos hcap]
    cases hold : oldestEntry st.active_voices with
    | none => exact h
    | some p =>
        obtain ⟨o, w⟩ := p
        have hmem : (o, w) ∈ st.active_voices := oldestEntry_mem hold
        have hget : dictGet o st.active_voices = some w :=
          dictGet_of_mem_nodup h.1 hmem
        simp only [SynthState.note_off, hget]
        constructor
        · exact dictInsert_nodup _ (dictErase_nodup h.1)
        · calc (dictInsert note (newVoice st.clock)
                  (dictErase o st.active_voices)).length
              ≤ (dictErase o st.active_voices).length + 1 :=
                dictInsert_length_le _ _ _
          _ ≤ st.active_voices.length := dictErase_length_lt hget
          _ ≤ st.max_voices := h.2
  · rw [if_neg hcap]
    constructor
    · exact dictInsert_nodup _ h.1
    · calc (dictInsert note (newVoice st.clock) st.active_voices).length
          ≤ st.active_voices.length + 1 := dictInsert_length_le _ _ _
      _ ≤ st.max_voices := Nat.succ_le_of_lt (Nat.lt_of_not_le hcap)

lemma voiceInv_step {st : SynthState} (h : VoiceInv st) (e : VEvent) :
    VoiceInv (st.step e) := by
  cases e with
  | note_on n => exact voiceInv_note_on h n
  | note_off n => exact voiceInv_note_off h n

lemma voiceInv_run {st : SynthState} (h : VoiceInv st) (evs : List VEvent) :
    VoiceInv (st.run evs) := by
  induction evs generalizing st with
  | nil => exact h
  | cons e evs ih => exact ih (voiceInv_step h e)

lemma voiceInv_init : VoiceInv SynthState.init :=
  ⟨List.nodup_nil, by simp [SynthState.init]⟩

/-! ### Claims C1 and C10 -/

/-- C1: along every sequence of `note_on`/`note_off` events the active set
never exceeds `max_voices`; and a `note_on` issued when the active set is
at the cap first moves the active voice with the smallest start time into
the released set — with its `release_triggered` flag set and its envelope
put into the release stage — and then inserts the new voice, leaving the
rest of the active set untouched. -/
theorem voice_cap_never_exceeded_and_oldest_stolen :
    (∀ evs : List VEvent,
      (SynthState.init.run evs).active_voices.length ≤
        (SynthState.init.run evs).max_voices) ∧
    (∀ (st : SynthState) (note : ℕ),
      (dictKeys st.active_voices).Nodup →
      st.max_voices ≤ st.active_voices.length →
      ∀ o w, oldestEntry st.active_voices = some (o, w) →
        (∀ q ∈ st.active_voices, w.note_on_time ≤ q.2.note_on_time) ∧
        dictGet o (st.note_on note).released_voices =
          some { w with release_triggered := true, adsr := w.adsr.note_off } ∧
        ({ w with release_triggered := true
                  adsr := w.adsr.note_off } : Voice).adsr.current_state = AStage.release ∧
        (st.note_on note).active_voices =
          dictInsert note (newVoice st.clock) (dictErase o st.active_voices) ∧
        dictGet note (st.note_on note).active_voices = some (newVoice st.clock)) := by
  constructor
  · exact fun evs => (voiceInv_run voiceInv_init evs).2
  · intro st note hnd hcap o w hold
    have hmem : (o, w) ∈ st.active_voices := oldestEntry_mem hold
    have hget : dictGet o st.active_voices = some w := dictGet_of_mem_nodup hnd hmem
    have hshape : st.note_on note =
        { st with
            active_voices :=
              dictInsert note (newVoice st.clock) (dictErase o st.active_voices)
            released_voices :=
              dictInsert o
                { w with release_triggered := true, adsr := w.adsr.note_off }
                st.released_voices
            clock := st.clock + 1 } := by
      unfold SynthState.note_on
      rw [if_pos hcap, hold]
      simp only [SynthState.note_off, hget]
    refine ⟨oldestEntry_min hold, ?_, rfl, ?_, ?_⟩
    · rw [hshape]
      exact dictGet_dictInsert_self _ _ _
    · rw [hshape]
    · rw [hshape]
      exact dictGet_dictInsert_self _ _ _

/-- Witness for C1: the stealing branch evaluated on `capSt`. -/
theorem voice_cap_never_exceeded_and_oldest_stolen_witness :
    ((dictKeys capSt.active_voices).Nodup ∧
      capSt.max_voices ≤ capSt.active_voices.length ∧
      oldestEntry capSt.active_voices = some (60, newVoice 3)) ∧
    ((∀ q ∈ capSt.active_voices, (newVoice 3).note_on_time ≤ q.2.note_on_time) ∧
      dictGet 60 (capSt.note_on 62).released_voices =
        some { newVoice 3 with release_triggered := true
                               adsr := (newVoice 3).adsr.note_off } ∧
      ({ newVoice 3 with release_triggered := true
                         adsr := (newVoice 3).adsr.note_off } : Voice).adsr.current_state
        = AStage.release ∧
      (capSt.note_on 62).active_voices =
        dictInsert 62 (newVoice capSt.clock) (dictErase 60 capSt.active_voices) ∧
      dictGet 62 (capSt.note_on 62).active_voices = some (newVoice capSt.clock)) := by
  have hnd : (dictKeys capSt.active_voices).Nodup := by
    simp [capSt, dictKeys]
  have hcap : capSt.max_voices ≤ capSt.active_voices.length := by
    simp [capSt]
  have hold : oldestEntry capSt.active_voices = some (60, newVoice 3) := rfl
  exact ⟨⟨hnd, hcap, hold⟩,
    voice_cap_never_exceeded_and_oldest_stolen.2 capSt 62 hnd hcap 60 (newVoice 3) hold⟩

/-- C10: a `note_on` for a note already in the active set, with the set
below the cap, overwrites that note's entry with a freshly constructed
voice (envelope in attack, `release_triggered = false`); the released set
is untouched, so the previous voice is dropped without its envelope
release being triggered, and the key set and size of the active set are
unchanged. -/
theorem note_on_existing_note_replaces_voice
    (st : SynthState) (note : ℕ)
    (hlt : st.active_voices.length < st.max_voices)
    (hin : (dictGet note st.active_voices).isSome) :
    (st.note_on note).released_voices = st.released_voices ∧
    dictGet note (st.note_on note).active_voices = some (newVoice st.clock) ∧
    dictKeys (st.note_on note).active_voices = dictKeys st.active_voices ∧
    (st.note_on note).active_voices.length = st.active_voices.length ∧
    (newVoice st.clock).release_triggered = false ∧
    (newVoice st.clock).adsr.current_state = AStage.attack := by
  have hany := dictGet_isSome_any hin
  have hshape : st.note_on note =
      { st with
          active_voices := dictInsert note (newVoice st.clock) st.active_voices
          clock := st.clock + 1 } := by
    unfold SynthState.note_on
    rw [if_neg (Nat.not_le_of_lt hlt)]
  refine ⟨by rw [hshape], ?_, ?_, ?_, rfl, rfl⟩
  · rw [hshape]
    exact dictGet_dictInsert_self _ _ _
  · rw [hshape]
    exact dictInsert_keys_of_mem _ hany
  · rw [hshape]
    exact dictInsert_length_of_mem _ hany

/-- Witness for C10: retriggering note 60 on `lowSt`. -/
theorem note_on_existing_note_replaces_voice_witness :
    (lowSt.active_voices.length < lowSt.max_voices ∧
      (dictGet 60 lowSt.active_voices).isSome) ∧
    ((lowSt.note_on 60).released_voices = lowSt.released_voices ∧
      dictGet 60 (lowSt.note_on 60).active_voices = some (newVoice lowSt.clock) ∧
      dictKeys (lowSt.note_on 60).active_voices = dictKeys lowSt.active_voices ∧
      (lowSt.note_on 60).active_voices.length = lowSt.active_voices.length ∧
      (newVoice lowSt.clock).release_triggered = false ∧
      (newVoice lowSt.clock).adsr.current_state = AStage.attack) := by
  have h1 : lowSt.active_voices.length < lowSt.max_voices := by simp [lowSt]
  have h2 : (dictGet 60 lowSt.active_voices).isSome := rfl
  exact ⟨⟨h1, h2⟩, note_on_existing_note_replaces_voice lowSt 60 h1 h2⟩

lemma failing_step_id (m : AudioModule) (hfail : ∀ s, m.proc s = none)
    (buf : List ℚ) : chainStep buf m = buf := by
  unfold chainStep AudioModule.process
  split
  · rfl
  · rw [hfail]; rfl

lemma foldl_chainStep_failing {m : AudioModule} (hfail : ∀ s, m.proc s = none)
    (f₁ f₂ : List AudioModule) (s : List ℚ) :
    (f₁ ++ m :: f₂).foldl chainStep s = (f₁ ++ f₂).foldl chainStep s := by
  rw [List.foldl_append, List.foldl_append, List.foldl_cons,
    failing_step_id m hfail]

/-- Normal form of `process_audio`: it is the fold over the active modules
when there are any, and the identity otherwise (the `not self.chain` and
`not active_modules` early returns coincide with that). -/
lemma processAudio_eq (chain : List AudioModule) (s : List ℚ) :
    processAudio chain s =
      if (chain.filter (fun m => m.enabled && !m.bypass)).isEmpty then s
      else (chain.filter (fun m => m.enabled && !m.bypass)).foldl chainStep s := by
  unfold processAudio
  by_cases hc : chain.isEmpty = true
  · rw [if_pos hc]
    rw [List.isEmpty_iff] at hc
    subst hc
    simp
  · simp only [hc, Bool.false_eq_true, if_false]

/-! ### Claim C7 -/

/-- C7: a module whose processing hook always fails does not abort the
chain: both `process_voice` and `process_audio` behave exactly as if the
failing module were absent — the buffer keeps its pre-failure value and
the remaining modules still run on it in order. -/
theorem failing_module_leaves_buffer_and_chain_continues
    (c₁ c₂ : List AudioModule) (m : AudioModule) (signal : List ℚ)
    (hfail : ∀ s, m.proc s = none) :
    processVoice (c₁ ++ m :: c₂) signal = processVoice (c₁ ++ c₂) signal ∧
    processAudio (c₁ ++ m :: c₂) signal = processAudio (c₁ ++ c₂) signal := by
  have hfilter :
      (c₁ ++ m :: c₂).filter (fun m => m.enabled && !m.bypass) =
        c₁.filter (fun m => m.enabled && !m.bypass) ++
          (if m.enabled && !m.bypass then
            m :: c₂.filter (fun m => m.enabled && !m.bypass)
          else c₂.filter (fun m => m.enabled && !m.bypass)) := by
    rw [List.filter_append, List.filter_cons]
  constructor
  · unfold processVoice
    rw [hfilter]
    by_cases hm : (m.enabled && !m.bypass) = true
    · rw [if_pos hm, List.filter_append]
      exact foldl_chainStep_failing hfail _ _ _
    · rw [if_neg hm, List.filter_append]
  · rw [processAudio_eq, processAudio_eq, hfilter]
    by_cases hm : (m.enabled && !m.bypass) = true
    · rw [if_pos hm, List.filter_append]
      have hne : ((c₁.filter (fun m => m.enabled && !m.bypass) ++
          m :: c₂.filter (fun m => m.enabled && !m.bypass)).isEmpty) = false := by
        simp
      rw [hne]
      simp only [Bool.false_eq_true, if_false]
      rw [foldl_chainStep_failing hfail]
      by_cases h2 : ((c₁.filter (fun m => m.enabled && !m.bypass) ++
          c₂.filter (fun m => m.enabled && !m.bypass)).isEmpty) = true
      · rw [if_pos h2]
        rw [List.isEmpty_iff] at h2
        rw [h2, List.foldl_nil]
      · rw [if_neg h2]
    · rw [if_neg hm, List.filter_append]

/-- Witness for C7: a two-module chain whose second module always fails. -/
theorem failing_module_leaves_buffer_and_chain_continues_witness :
    (∀ s, failModule.proc s = none) ∧
    (processVoice ([passModule] ++ failModule :: []) [1, 2] =
        processVoice ([passModule] ++ []) [1, 2] ∧
      processAudio ([passModule] ++ failModule :: []) [1, 2] =
        processAudio ([passModule] ++ []) [1, 2]) :=
  ⟨fun _ => rfl,
    failing_module_leaves_buffer_and_chain_continues [passModule] [] failModule
      [1, 2] (fun _ => rfl)⟩

lemma zipWith_left (s t : List ℚ) (h : t.length = s.length) :
    List.zipWith (fun x _ => x) s t = s := by
  induction s generalizing t with
  | nil => simp
  | cons a s ih =>
      cases t with
      | nil => simp at h
      | cons b t =>
          simp only [List.zipWith_cons_cons, List.cons.injEq, true_and]
          exact ih t (by simpa using h)

lemma zipWith_right (s t : List ℚ) (h : t.length = s.length) :
    List.zipWith (fun _ w => w) s t = t := by
  induction s generalizing t with
  | nil => cases t with
    | nil => simp
    | cons b t => simp at h
  | cons a s ih =>
      cases t with
      | nil => simp at h
      | cons b t =>
          simp only [List.zipWith_cons_cons, List.cons.injEq, true_and]
          exact ih t (by simpa using h)

/-! ### Claim C8 -/

/-- C8: for every effect whose hook preserves the buffer length, the
configuration `wet = 0, dry = 1` reproduces the input exactly, and
`wet = 1, dry = 0` yields the hook's wet signal alone. -/
theorem effect_dry_identity_and_wet_passthrough
    (e : EffectM) (signal : List ℚ)
    (hlen : (e.eff signal).length = signal.length) :
    (e.dry = 1 → e.wet = 0 → e.process_audio signal = signal) ∧
    (e.dry = 0 → e.wet = 1 → e.process_audio signal = e.eff signal) := by
  constructor
  · intro hd hw
    unfold EffectM.process_audio
    rw [hd, hw]
    simp only [mul_one, mul_zero, add_zero]
    exact zipWith_left signal (e.eff signal) hlen
  · intro hd hw
    unfold EffectM.process_audio
    rw [hd, hw]
    simp only [mul_one, mul_zero, zero_add]
    exact zipWith_right signal (e.eff signal) hlen

/-- Witness for C8 on a doubling effect and the buffer `[1, 2, 3]`. -/
theorem effect_dry_identity_and_wet_passthrough_witness :
    ((dryEffect.eff [1, 2, 3]).length = ([1, 2, 3] : List ℚ).length) ∧
    ((dryEffect.dry = 1 → dryEffect.wet = 0 →
        dryEffect.process_audio [1, 2, 3] = [1, 2, 3]) ∧
      (dryEffect.dry = 0 → dryEffect.wet = 1 →
        dryEffect.process_audio [1, 2, 3] = dryEffect.eff [1, 2, 3])) :=
  ⟨rfl, effect_dry_identity_and_wet_passthrough dryEffect [1, 2, 3] rfl⟩

/-! ### Claim C9 -/

/-- C9: with a positive threshold, every output sample of the limiter is
bounded in magnitude by the corresponding input sample; when the updated
envelope stays at or below the threshold the sample passes through
unchanged, and when it exceeds the threshold the sample is scaled by the
gain `threshold / envelope`, which is strictly less than 1. -/
theorem limiter_only_attenuates (st : SafetyLimiter) (signal : List ℚ)
    (hth : 0 < st.threshold) :
    List.Forall₂ (fun y x => |y| ≤ |x|) (st.process signal).2 signal ∧
    (∀ x xs, ¬ limiterEnv st x > st.threshold →
      (st.process (x :: xs)).2.head? = some x) ∧
    (∀ x xs, limiterEnv st x > st.threshold →
      (st.process (x :: xs)).2.head? =
        some (x * (st.threshold / limiterEnv st x)) ∧
      st.threshold / limiterEnv st x < 1) := by
  refine ⟨?_, ?_, ?_⟩
  · induction signal generalizing st with
    | nil => exact List.Forall₂.nil
    | cons x xs ih =>
        unfold SafetyLimiter.process
        refine List.Forall₂.cons ?_ (ih { st with envelope := limiterEnv st x } hth)
        by_cases hg : limiterEnv st x > st.threshold
        · rw [if_pos hg]
          have henv : 0 < limiterEnv st x := lt_trans hth hg
          have hgain0 : 0 < st.threshold / limiterEnv st x := div_pos hth henv
          have hgain1 : st.threshold / limiterEnv st x < 1 :=
            (div_lt_one henv).mpr hg
          rw [abs_mul]
          calc |x| * |st.threshold / limiterEnv st x|
              = |x| * (st.threshold / limiterEnv st x) := by
                rw [abs_of_pos hgain0]
            _ ≤ |x| * 1 := by
                exact mul_le_mul_of_nonneg_left (le_of_lt hgain1) (abs_nonneg x)
            _ = |x| := mul_one _
        · rw [if_neg hg]
  · intro x xs hg
    unfold SafetyLimiter.process
    dsimp only
    rw [if_neg hg]
    rfl
  · intro x xs hg
    have henv : 0 < limiterEnv st x := lt_trans hth hg
    constructor
    · unfold SafetyLimiter.process
      dsimp only
      rw [if_pos hg]
      rfl
    · exact (div_lt_one henv).mpr hg

/-- Witness for C9 at `threshold = 19/20`, coefficient `1/2`, envelope 0,
and the buffer `[1/2, 2, 1]` (the sample `2` pushes the envelope above
the threshold). -/
theorem limiter_only_attenuates_witness :
    (0 < ({ threshold := 19/20, release_coeff := 1/2,
            envelope := 0 } : SafetyLimiter).threshold) ∧
    List.Forall₂ (fun y x => |y| ≤ |x|)
      (({ threshold := 19/20, release_coeff := 1/2,
          envelope := 0 } : SafetyLimiter).process [1/2, 2, 1]).2
      [1/2, 2, 1] :=
  ⟨by norm_num,
    (limiter_only_attenuates
      { threshold := 19/20, release_coeff := 1/2, envelope := 0 }
      [1/2, 2, 1] (by norm_num)).1⟩

/-! ### Claim C6 -/

/-- C6: every sample the callback emits is finite and lies in `[-1, 1]`;
and whenever the mixed buffer contains a NaN or an infinity, the whole
emitted buffer is zeros. -/
theorem callback_output_finite_and_nonfinite_muted (temp : List FSample) :
    (∀ y ∈ finalizeBuffer temp, ∃ q : ℚ, y = FSample.fin q ∧ -1 ≤ q ∧ q ≤ 1) ∧
    ((temp.any FSample.isNan || temp.any FSample.isInf) = true →
      finalizeBuffer temp = temp.map (fun _ => FSample.fin 0)) := by
  constructor
  · intro y hy
    unfold finalizeBuffer at hy
    by_cases hg : (temp.any FSample.isNan || temp.any FSample.isInf) = true
    · rw [if_pos hg] at hy
      simp only [List.map_map, List.mem_map] at hy
      obtain ⟨s, -, hs⟩ := hy
      refine ⟨0, ?_, by norm_num, by norm_num⟩
      rw [← hs]
      simp [clipF]
    · rw [if_neg hg] at hy
      simp only [List.mem_map] at hy
      obtain ⟨s, hsmem, hs⟩ := hy
      rw [Bool.or_eq_true, not_or] at hg
      obtain ⟨hnan, hinf⟩ := hg
      cases s with
      | fin x =>
          refine ⟨max (-1) (min 1 x), by rw [← hs]; rfl, ?_, ?_⟩
          · exact le_max_left _ _
          · exact max_le (by norm_num) (min_le_left _ _)
      | nan =>
          exact absurd (List.any_eq_true.mpr ⟨FSample.nan, hsmem, rfl⟩) hnan
      | inf =>
          exact absurd (List.any_eq_true.mpr ⟨FSample.inf, hsmem, rfl⟩) hinf
      | ninf =>
          exact absurd (List.any_eq_true.mpr ⟨FSample.ninf, hsmem, rfl⟩) hinf
  · intro hg
    unfold finalizeBuffer
    rw [if_pos hg, List.map_map]
    apply List.map_congr_left
    intro s _
    simp [clipF, Function.comp]

/-- Witness for C6: a buffer holding a NaN is muted to zeros. -/
theorem callback_output_finite_and_nonfinite_muted_witness :
    (([FSample.fin (1/2), FSample.nan].any FSample.isNan ||
        [FSample.fin (1/2), FSample.nan].any FSample.isInf) = true) ∧
    finalizeBuffer [FSample.fin (1/2), FSample.nan] =
      [FSample.fin (1/2), FSample.nan].map (fun _ => FSample.fin 0) :=
  ⟨rfl,
    (callback_output_finite_and_nonfinite_muted
      [FSample.fin (1/2), FSample.nan]).2 rfl⟩

/-- Sanity of `rollList` against the indexing semantics of `np.roll`. -/
lemma rollList_get (l : List α) (k : ℤ) (i : ℕ) (hi : i < l.length) :
    (rollList l k).get ⟨i, by simpa [rollList] using hi⟩ =
      l.get ⟨(((i : ℤ) - k) % (l.length : ℤ)).toNat, by
        have hn : (0 : ℤ) < (l.length : ℤ) := by
          exact_mod_cast lt_of_le_of_lt (Nat.zero_le i) hi
        have h1 := Int.emod_lt_of_pos ((i : ℤ) - k) hn
        have h2 := Int.emod_nonneg ((i : ℤ) - k) (by omega : (l.length : ℤ) ≠ 0)
        omega⟩ := by
  have hn : (0 : ℤ) < (l.length : ℤ) := by
    exact_mod_cast lt_of_le_of_lt (Nat.zero_le i) hi
  have hm0 : 0 ≤ (-k) % (l.length : ℤ) :=
    Int.emod_nonneg _ (by omega)
  unfold rollList
  rw [List.get_rotate]
  have hcast : (((i + ((-k) % (l.length : ℤ)).toNat) % l.length : ℕ) : ℤ)
      = ((i : ℤ) - k) % (l.length : ℤ) := by
    push_cast
    rw [Int.toNat_of_nonneg hm0]
    calc ((i : ℤ) + (-k) % (l.length : ℤ)) % (l.length : ℤ)
        = ((i : ℤ) % (l.length : ℤ) + (-k) % (l.length : ℤ) % (l.length : ℤ))
            % (l.length : ℤ) := Int.add_emod _ _ _
      _ = ((i : ℤ) % (l.length : ℤ) + (-k) % (l.length : ℤ)) % (l.length : ℤ) := by
          rw [Int.emod_emod_of_dvd _ dvd_rfl]
      _ = ((i : ℤ) + -k) % (l.length : ℤ) := (Int.add_emod _ _ _).symm
      _ = ((i : ℤ) - k) % (l.length : ℤ) := by rw [Int.sub_eq_add_neg]
  have hs0 : 0 ≤ ((i : ℤ) - k) % (l.length : ℤ) :=
    Int.emod_nonneg _ (by omega)
  congr 1
  simp only [Fin.mk.injEq, Fin.val_mk]
  omega

/-! ### Claim C3 -/

/-- C3 counterexample: pulse wave, frequency 1, sample rate 8, duration 1,
detune of 12 semitones (frequency ratio exactly 2, so the "frequency
scaled by `2^(semitones/12)`" is 2, and `Oscillator.generate` passes
`detuneOffset 1 12 = 1` to `generate_waveform`).  The detuned buffer is
the base buffer rotated by `np.roll` — it differs from the waveform
generated at the scaled frequency with no detune. -/
theorem generate_waveform_detune_is_roll_cex :
    detuneOffset 1 12 = 1 ∧
    generate_waveform Wave.pulse 1 8 1 (detuneOffset 1 12) =
      rollList (baseWaveform Wave.pulse 8) 7 ∧
    generate_waveform Wave.pulse 1 8 1 (detuneOffset 1 12) ≠
      generate_waveform Wave.pulse (1 * (2 : ℝ) ^ ((12 : ℝ) / 12)) 8 1 0 := by
  have hoff : detuneOffset 1 12 = 1 := by
    unfold detuneOffset
    rw [show ((12 : ℝ) / 12) = 1 by norm_num, Real.rpow_one]
    ring
  have hsize : (pyInt ((8 : ℝ) * 1)).toNat = 8 := by
    unfold pyInt
    rw [if_pos (by norm_num : (0 : ℝ) ≤ 8 * 1)]
    rw [show ((8 : ℝ) * 1) = ((8 : ℤ) : ℝ) by norm_num, Int.floor_intCast]
    rfl
  have hshift :
      pyInt ((1 : ℝ) * 1 * (((8 : ℕ) : ℝ) - 1) / ((8 : ℕ) : ℝ) * 8) = 7 := by
    unfold pyInt
    have : ((1 : ℝ) * 1 * (((8 : ℕ) : ℝ) - 1) / ((8 : ℕ) : ℝ) * 8) = 7 := by
      norm_num
    rw [this, if_pos (by norm_num : (0 : ℝ) ≤ 7)]
    rw [show (7 : ℝ) = ((7 : ℤ) : ℝ) by norm_num, Int.floor_intCast]
  have hbase : baseWaveform Wave.pulse 8 =
      [1, 1, 1, 1, -1, -1, -1, -1] := by
    unfold baseWaveform waveSample
    norm_num [List.range_succ]
  have hlhs : generate_waveform Wave.pulse 1 8 1 (detuneOffset 1 12) =
      rollList (baseWaveform Wave.pulse 8) 7 := by
    rw [hoff]
    unfold generate_waveform
    rw [if_pos (by norm_num : (1 : ℝ) ≠ 0)]
    rw [hsize]
    rw [hshift]
  have hrhs : generate_waveform Wave.pulse (1 * (2 : ℝ) ^ ((12 : ℝ) / 12)) 8 1 0 =
      baseWaveform Wave.pulse 8 := by
    unfold generate_waveform
    rw [if_neg (by norm_num : ¬ (0 : ℝ) ≠ 0)]
    rw [hsize]
  refine ⟨hoff, hlhs, ?_⟩
  rw [hlhs, hrhs, hbase]
  have hroll : rollList ([1, 1, 1, 1, -1, -1, -1, -1] : List ℝ) 7 =
      [1, 1, 1, -1, -1, -1, -1, 1] := by
    unfold rollList
    norm_num
    rfl
  rw [hroll]
  norm_num

/-- C3 amended: `generate_waveform` does not apply detune in the phase
computation — the detuned buffer is a cyclic rotation (`np.roll`) of the
undetuned base buffer, which itself is independent of the frequency
argument (any `f`, `f'`). -/
theorem generate_waveform_detuned_is_rotation (w : Wave) (f f' sr dur d : ℝ) :
    List.IsRotated (generate_waveform w f sr dur d)
      (generate_waveform w f' sr dur 0) := by
  unfold generate_waveform
  rw [if_neg (by simp : ¬ ((0 : ℝ) ≠ 0))]
  by_cases hd : d ≠ 0
  · rw [if_pos hd]
    unfold rollList
    exact List.IsRotated.forall _ _
  · rw [if_neg hd]

/-! ### Claim C4 -/

lemma targetCoeffs_bounds (fc Q sr : ℝ) (hsr : 0 < sr)
    (hc1 : 20 ≤ fc) (hc2 : fc ≤ sr / 2.1) (hq1 : 0.1 ≤ Q) (hq2 : Q ≤ 10) :
    |(targetCoeffs fc Q sr).1| < 2 ∧
    0 ≤ (targetCoeffs fc Q sr).2.1 ∧ (targetCoeffs fc Q sr).2.1 ≤ 1 ∧
    0 ≤ (targetCoeffs fc Q sr).2.2 ∧ (targetCoeffs fc Q sr).2.2 ≤ 2 := by
  unfold targetCoeffs clipR
  dsimp only
  rw [max_eq_right hc1, min_eq_right hc2, max_eq_right hq1, min_eq_right hq2]
  have hpi := Real.pi_pos
  have hfc0 : (0 : ℝ) < fc := by linarith
  have hw0pos : 0 < 2 * Real.pi * fc / sr := by positivity
  have hfc21 : fc * 2.1 ≤ sr := (le_div_iff₀ (by norm_num)).mp hc2
  have hw0lt : 2 * Real.pi * fc / sr < Real.pi := by
    rw [div_lt_iff₀ hsr]
    nlinarith [mul_pos hpi hfc0]
  have hsin : 0 < Real.sin (2 * Real.pi * fc / sr) :=
    Real.sin_pos_of_pos_of_lt_pi hw0pos hw0lt
  have hQpos : (0 : ℝ) < Q := lt_of_lt_of_le (by norm_num) hq1
  have halpha : 0 < Real.sin (2 * Real.pi * fc / sr) / (2 * Q) :=
    div_pos hsin (by linarith)
  have ha0 : 1 < 1 + Real.sin (2 * Real.pi * fc / sr) / (2 * Q) := by linarith
  have ha0pos : 0 < 1 + Real.sin (2 * Real.pi * fc / sr) / (2 * Q) := by linarith
  have hcos1 : Real.cos (2 * Real.pi * fc / sr) ≤ 1 := Real.cos_le_one _
  have hcosm1 : -1 ≤ Real.cos (2 * Real.pi * fc / sr) := Real.neg_one_le_cos _
  refine ⟨?_, ?_, ?_, ?_, ?_⟩
  · rw [abs_div, abs_of_pos ha0pos, div_lt_iff₀ ha0pos]
    have habs : |(-2) * Real.cos (2 * Real.pi * fc / sr)| ≤ 2 := by
      rw [abs_mul]
      have : |Real.cos (2 * Real.pi * fc / sr)| ≤ 1 :=
        abs_le.mpr ⟨hcosm1, hcos1⟩
      have h2 : |(-2 : ℝ)| = 2 := by norm_num
      nlinarith [abs_nonneg (Real.cos (2 * Real.pi * fc / sr))]
    nlinarith
  · apply div_nonneg _ (le_of_lt ha0pos)
    linarith
  · rw [div_le_one ha0pos]
    linarith
  · apply div_nonneg _ (le_of_lt ha0pos)
    linarith
  · rw [div_le_iff₀ ha0pos]
    linarith

lemma clipR_mem_unit (v : ℝ) : -1 ≤ clipR v (-1) 1 ∧ clipR v (-1) 1 ≤ 1 := by
  unfold clipR
  constructor
  · exact le_min (by norm_num) (le_max_left _ _)
  · exact min_le_left _ _

lemma apply_filter_output_clipped (g : LowPassFilter) (signal : List ℝ) :
    ∀ y ∈ (g.apply_filter signal).2, -1 ≤ y ∧ y ≤ 1 := by
  induction signal generalizing g with
  | nil =>
      intro y hy
      simp [LowPassFilter.apply_filter] at hy
  | cons x xs ih =>
      intro y hy
      unfold LowPassFilter.apply_filter at hy
      dsimp only at hy
      rcases List.mem_cons.mp hy with rfl | hrest
      · exact clipR_mem_unit _
      · exact ih _ _ hrest

/-- C4: for a cutoff in `[20, sampleRate/2.1]` and resonance in
`[0.1, 10]` (with positive sample rate, fresh coefficient computation),
the coefficients assigned by `_update_coefficients` are well-defined and
bounded — `|a1| < 2`, `b0 ∈ [0, 1]`, `b1 ∈ [0, 2]` — and every output
sample of `apply_filter` lies in `[-1, 1]` for every filter state and
input buffer. -/
theorem filter_coeffs_bounded_and_output_in_unit_interval
    (f : LowPassFilter) (hsr : 0 < f.sample_rate)
    (hc1 : 20 ≤ f.cutoff_freq) (hc2 : f.cutoff_freq ≤ f.sample_rate / 2.1)
    (hq1 : 0.1 ≤ f.resonance) (hq2 : f.resonance ≤ 10)
    (hfresh : f.prev_cutoff = none) :
    (|f.update_coefficients.a1| < 2 ∧
      0 ≤ f.update_coefficients.b0 ∧ f.update_coefficients.b0 ≤ 1 ∧
      0 ≤ f.update_coefficients.b1 ∧ f.update_coefficients.b1 ≤ 2) ∧
    (∀ (g : LowPassFilter) (signal : List ℝ),
      ∀ y ∈ (g.apply_filter signal).2, -1 ≤ y ∧ y ≤ 1) := by
  constructor
  · have hb := targetCoeffs_bounds f.cutoff_freq f.resonance f.sample_rate
      hsr hc1 hc2 hq1 hq2
    unfold LowPassFilter.update_coefficients
    rw [hfresh]
    exact hb
  · exact apply_filter_output_clipped

/-- Witness for C4 at the constructor's default parameters. -/
theorem filter_coeffs_bounded_and_output_in_unit_interval_witness :
    (0 < initFilter.sample_rate ∧ 20 ≤ initFilter.cutoff_freq ∧
      initFilter.cutoff_freq ≤ initFilter.sample_rate / 2.1 ∧
      0.1 ≤ initFilter.resonance ∧ initFilter.resonance ≤ 10 ∧
      initFilter.prev_cutoff = none) ∧
    ((|initFilter.update_coefficients.a1| < 2 ∧
        0 ≤ initFilter.update_coefficients.b0 ∧
        initFilter.update_coefficients.b0 ≤ 1 ∧
        0 ≤ initFilter.update_coefficients.b1 ∧
        initFilter.update_coefficients.b1 ≤ 2) ∧
      (∀ (g : LowPassFilter) (signal : List ℝ),
        ∀ y ∈ (g.apply_filter signal).2, -1 ≤ y ∧ y ≤ 1)) :=
  ⟨⟨by norm_num [initFilter], by norm_num [initFilter], by norm_num [initFilter],
      by norm_num [initFilter], by norm_num [initFilter], rfl⟩,
    filter_coeffs_bounded_and_output_in_unit_interval initFilter
      (by norm_num [initFilter]) (by norm_num [initFilter])
      (by norm_num [initFilter]) (by norm_num [initFilter])
      (by norm_num [initFilter]) rfl⟩
